import Mathlib

/-!
Verification of the qpageview layout core (`layout.py`) against its
natural-language specification.

The Python source is shallowly embedded: Python unbounded integers become
`Int` (or `Nat` where the code manifestly treats a value as a count),
Python real arithmetic (zoom factors, scales, DPI) becomes `Rat` so that
the algebra is exact, `QRect`/`QPoint`/`QMargins` become explicit record
or tuple types, and the in-place mutation performed by `update()` and
`displayPages()` becomes explicit state passing (a function returning the
new layout value).

Parts of the repository that the layout code calls but that are not in the
sources handed to us (the `rectangles` spatial-index module, `page.py`'s
`Page.computeSize` / `zoomForWidth` / `zoomForHeight` / `pos` / `geometry`,
and `constants.py`) are modelled from the specification; each such
definition carries a doc comment starting with `Modelled from the spec:`.
-/

namespace QPV

/-- Python's `round()`: round half to even (banker's rounding). -/
def pyRound (q : ℚ) : ℤ :=
  let f : ℤ := ⌊q⌋
  let r : ℚ := q - f
  if r < 1/2 then f
  else if 1/2 < r then f + 1
  else if f % 2 = 0 then f else f + 1

/-- Python list slicing `l[a:b]` (no step): negative indices count from the
end, then both bounds are clamped into `[0, len]`. -/
def pySlice (l : List α) (a b : ℤ) : List α :=
  let n : ℤ := l.length
  let fix : ℤ → ℤ := fun i => if i < 0 then max 0 (i + n) else min i n
  ((l.drop (fix a).toNat).take ((fix b) - (fix a)).toNat)

/-- A page, as the layout sees it: the geometry-relevant subset of
`page.Page`.  `pageWidth`/`pageHeight` are the natural size (`pageSize()`),
`rotation` the page's own rotation quadrant, `scaleX`/`scaleY` its per-axis
scale.  `computedRotation`, `width`, `height`, `x` and `y` are the computed
fields written by the layout's update passes. -/
structure Page where
  pageWidth : ℚ := 595
  pageHeight : ℚ := 842
  rotation : ℕ := 0
  scaleX : ℚ := 1
  scaleY : ℚ := 1
  computedRotation : ℕ := 0
  width : ℤ := 0
  height : ℤ := 0
  x : ℤ := 0
  y : ℤ := 0
deriving DecidableEq, Repr

/-- A `QRect`, stored Qt-style as its two corners (`x2 = x + width - 1`). -/
structure QRect where
  x1 : ℤ
  y1 : ℤ
  x2 : ℤ
  y2 : ℤ
deriving DecidableEq, Repr

/-- The default-constructed (null) `QRect()`. -/
def QRect.null : QRect := ⟨0, 0, -1, -1⟩

/-- `QRect.isNull`: zero width and zero height. -/
def QRect.isNull (r : QRect) : Bool := r.x2 - r.x1 + 1 = 0 ∧ r.y2 - r.y1 + 1 = 0

/-- `QRect.operator|` (united): the bounding rectangle, where a null
rectangle acts as the identity. -/
def QRect.union (r s : QRect) : QRect :=
  if r.isNull then s
  else if s.isNull then r
  else ⟨min r.x1 s.x1, min r.y1 s.y1, max r.x2 s.x2, max r.y2 s.y2⟩

/-- `QRect + QMargins`: grow the rectangle by the margins. -/
def QRect.addMargins (r : QRect) (ml mt mr mb : ℤ) : QRect :=
  ⟨r.x1 - ml, r.y1 - mt, r.x2 + mr, r.y2 + mb⟩

/-- Modelled from the spec: `page.geometry()` lives in `page.py`, which is
not among the sources; per §3 it is the page's rectangle: its position
with its computed size, as a `QRect`. -/
def Page.geometry (p : Page) : QRect :=
  ⟨p.x, p.y, p.x + p.width - 1, p.y + p.height - 1⟩

/-- `AbstractPageLayout` (the data part): the page list plus the scalar
parameters, with the class-level defaults of `layout.py`.  The margins are
stored as the four components of the `QMargins` object. -/
structure Layout where
  pages : List Page := []
  marginLeft : ℤ := 6
  marginTop : ℤ := 6
  marginRight : ℤ := 6
  marginBottom : ℤ := 6
  spacing : ℤ := 8
  zoomFactor : ℚ := 1
  dpiX : ℚ := 72
  dpiY : ℚ := 72
  rotation : ℕ := 0
  x : ℤ := 0
  y : ℤ := 0
  width : ℤ := 0
  height : ℤ := 0
  continuousMode : Bool := true
  pagesPerSet : ℕ := 1
  pagesFirstSet : ℕ := 0
  currentPageSet : ℤ := 0
deriving DecidableEq, Repr

/-- `AbstractPageLayout.__bool__`: always `True`, even when the layout
holds zero pages (a plain Python list would be falsy when empty). -/
def Layout.pyBool (_ : Layout) : Bool := true

/-- `AbstractPageLayout.count()`. -/
def Layout.count (L : Layout) : ℕ := L.pages.length

/-- `AbstractPageLayout.empty()`. -/
def Layout.empty (L : Layout) : Bool := L.pages.length = 0

/-- The stored visible geometry `geometry()` as a `QRect` (built like
`QRect(x, y, width, height)`). -/
def Layout.geometryRect (L : Layout) : QRect :=
  ⟨L.x, L.y, L.x + L.width - 1, L.y + L.height - 1⟩

/-- The body of `AbstractPageLayout.pageSets()` as a function of the page
count `n` and the `pagesPerSet` / `pagesFirstSet` attributes (the only
state the method reads), embedded faithfully — including the slip at
`result[-1] == (result[-1][0] + 1, left)`: that line is a comparison
expression, not an assignment, so when the trailing leftover run has the
same length as the previous run it is silently dropped instead of merged.
(Python would raise `ZeroDivisionError` on `divmod(left, 0)`; the
theorems therefore assume `1 ≤ pagesPerSet`.) -/
def pageSetsCore (n perSet firstSet : ℕ) : List (ℕ × ℕ) :=
  if n = 0 then [] else
    let useFirst := firstSet ≠ 0 ∧ firstSet ≠ perSet
    let firstLen := min n firstSet
    let r1 : List (ℕ × ℕ) := if useFirst then [(1, firstLen)] else []
    let left1 := if useFirst then n - firstLen else n
    if left1 = 0 then r1 else
      let q := left1 / perSet
      let r := left1 % perSet
      let r2 := if q ≠ 0 then r1 ++ [(q, perSet)] else r1
      if r = 0 then r2 else
        if (r2.getLast?.map Prod.snd) = some r then r2
        else r2 ++ [(1, r)]

/-- `AbstractPageLayout.pageSets()`. -/
def Layout.pageSets (L : Layout) : List (ℕ × ℕ) :=
  pageSetsCore L.pages.length L.pagesPerSet L.pagesFirstSet

/-- Total number of pages covered by a run list: sum of `count * length`. -/
def runsSum (rs : List (ℕ × ℕ)) : ℕ := (rs.map (fun cl => cl.1 * cl.2)).sum

/-- Total number of page sets in a run list: sum of the counts. -/
def setsCount (rs : List (ℕ × ℕ)) : ℕ := (rs.map Prod.fst).sum

/-- `AbstractPageLayout.pageSetCount()`. -/
def Layout.pageSetCount (L : Layout) : ℕ := setsCount L.pageSets

/-- The loop of `AbstractPageLayout.pageSet()`: `s` is the page index at
the start of the current run, `p` the set index there. -/
def pageSetGo : List (ℕ × ℕ) → ℕ → ℕ → ℕ → ℕ
  | [], _, _, _ => 0
  | (c, l) :: rs, s, p, i =>
      if s + c * l < i then pageSetGo rs (s + c * l) (p + c) i
      else p + (i - s) / l

/-- `AbstractPageLayout.pageSet(index)`. -/
def Layout.pageSet (L : Layout) (i : ℕ) : ℕ := pageSetGo L.pageSets 0 0 i

/-- The reference walk of the claims: scan the `(count, length)` runs
accumulating page counts until the index falls within a run's span; the
result is the set index there, `none` if the index falls within no run. -/
def specSetWalk : List (ℕ × ℕ) → ℕ → Option ℕ
  | [], _ => none
  | (c, l) :: rs, i =>
      if i < c * l then some (i / l)
      else (specSetWalk rs (i - c * l)).map (fun v => c + v)

/-- Start page index and length of page set `k`, read off the run list. -/
def setStartLen : List (ℕ × ℕ) → ℕ → ℕ × ℕ
  | [], _ => (0, 0)
  | (c, l) :: rs, k =>
      if k < c then (k * l, l)
      else
        let sl := setStartLen rs (k - c)
        (c * l + sl.1, sl.2)

/-- The pages of page set `k`, as the spec describes the partition: the
`setStartLen`-th slice of the page list. -/
def Layout.specSetPages (L : Layout) (k : ℕ) : List Page :=
  let sl := setStartLen L.pageSets k
  (L.pages.drop sl.1).take sl.2

/-- The clamp performed at the top of `displayPages()` on the current page
set: `if num and num >= count: num = self.currentPageSet = count - 1`.
Only the non-continuous branch reaches it. -/
def Layout.clampedSet (L : Layout) : ℤ :=
  if L.continuousMode then L.currentPageSet
  else if L.currentPageSet ≠ 0 ∧ (L.pageSetCount : ℤ) ≤ L.currentPageSet
  then (L.pageSetCount : ℤ) - 1
  else L.currentPageSet

/-- The run loop of `displayPages()`: `p` counts page sets, `s` pages; when
the requested set `num` falls before the end of the current run the slice
`self[s : s + length]` is returned, with `s` advanced by
`(num - p) * length`.  `none` means the loop ran off the end (the method
then falls through to `return self`). -/
def dispGo (pages : List Page) : List (ℕ × ℕ) → ℤ → ℤ → ℤ → Option (List Page)
  | [], _, _, _ => none
  | (c, l) :: rs, p, s, num =>
      if p + c ≤ num then dispGo pages rs (p + c) (s + c * l) num
      else some (pySlice pages (s + (num - p) * l) (s + (num - p) * l + l))

/-- The pages `displayPages()` returns: all pages in continuous mode,
otherwise the slice selected by the run loop (`return self` when the loop
runs off the end). -/
def Layout.dispPages (L : Layout) : List Page :=
  if L.continuousMode then L.pages
  else
    match dispGo L.pages L.pageSets 0 0 L.clampedSet with
    | some ps => ps
    | none => L.pages

/-- `AbstractPageLayout.displayPages()` as a state transformer: the method
can assign `self.currentPageSet` (the clamp — `clampedSet` equals
`currentPageSet` whenever the clamp does not fire, in particular in
continuous mode), so it returns the updated layout together with the
displayed pages. -/
def Layout.displayPagesSt (L : Layout) : Layout × List Page :=
  ({ L with currentPageSet := L.clampedSet }, L.dispPages)

/-- The pages returned by `displayPages()`. -/
def Layout.displayPages (L : Layout) : List Page := L.dispPages

section PageSetLemmas

theorem runsSum_append (a b : List (ℕ × ℕ)) :
    runsSum (a ++ b) = runsSum a + runsSum b := by
  simp [runsSum]

theorem pageSetsCore_nil (perSet firstSet : ℕ) :
    pageSetsCore 0 perSet firstSet = [] := by
  simp [pageSetsCore]

/-- Branch A1/A2: no distinct first set, at least one full regular set. -/
theorem pageSetsCore_noFirst (n perSet firstSet : ℕ) (hn : n ≠ 0)
    (huf : firstSet = 0 ∨ firstSet = perSet) (hq : n / perSet ≠ 0) :
    pageSetsCore n perSet firstSet =
      if n % perSet = 0 then [(n / perSet, perSet)]
      else [(n / perSet, perSet), (1, n % perSet)] := by
  have hps : perSet ≠ 0 := by
    intro h; rw [h] at hq; simp at hq
  have huf' : ¬ (firstSet ≠ 0 ∧ firstSet ≠ perSet) := by tauto
  have hmod : n % perSet < perSet := Nat.mod_lt _ (Nat.pos_of_ne_zero hps)
  by_cases hr : n % perSet = 0
  · simp [pageSetsCore, hn, huf', hq, hr]
  · have hne : perSet ≠ n % perSet := by omega
    simp [pageSetsCore, hn, huf', hq, hr, hne]

/-- Branch A3: no distinct first set, fewer pages than a regular set. -/
theorem pageSetsCore_noFirst_small (n perSet firstSet : ℕ) (hn : n ≠ 0)
    (huf : firstSet = 0 ∨ firstSet = perSet) (hq : n / perSet = 0) :
    pageSetsCore n perSet firstSet = [(1, n % perSet)] := by
  have huf' : ¬ (firstSet ≠ 0 ∧ firstSet ≠ perSet) := by tauto
  have hr : n % perSet ≠ 0 := by
    intro h
    have := Nat.div_add_mod n perSet
    rw [hq, h] at this
    omega
  simp [pageSetsCore, hn, huf', hq, hr]

/-- Branch B0: distinct first set consuming all pages. -/
theorem pageSetsCore_first_all (n perSet firstSet : ℕ) (hn : n ≠ 0)
    (huf : firstSet ≠ 0 ∧ firstSet ≠ perSet) (hl : n ≤ firstSet) :
    pageSetsCore n perSet firstSet = [(1, n)] := by
  have h1 : min n firstSet = n := by omega
  have h2 : n - min n firstSet = 0 := by omega
  simp [pageSetsCore, hn, huf, h1, h2]

/-- Branch B1: distinct first set, then at least one full regular set. -/
theorem pageSetsCore_first_big (n perSet firstSet : ℕ) (hn : n ≠ 0)
    (huf : firstSet ≠ 0 ∧ firstSet ≠ perSet) (hl : firstSet < n)
    (hq : (n - firstSet) / perSet ≠ 0) :
    pageSetsCore n perSet firstSet =
      if (n - firstSet) % perSet = 0 then [(1, firstSet), ((n - firstSet) / perSet, perSet)]
      else [(1, firstSet), ((n - firstSet) / perSet, perSet), (1, (n - firstSet) % perSet)] := by
  have hps : perSet ≠ 0 := by
    intro h; rw [h] at hq; simp at hq
  have h1 : min n firstSet = firstSet := by omega
  have h2 : n - firstSet ≠ 0 := by omega
  have hmod : (n - firstSet) % perSet < perSet := Nat.mod_lt _ (Nat.pos_of_ne_zero hps)
  by_cases hr : (n - firstSet) % perSet = 0
  · simp [pageSetsCore, hn, huf, h1, h2, hq, hr]
  · have hne : perSet ≠ (n - firstSet) % perSet := by omega
    simp [pageSetsCore, hn, huf, h1, h2, hq, hr, hne]

/-- Branch B2: distinct first set, then fewer pages than a regular set.
When the leftover equals the first-set length, the source's no-op
comparison drops the leftover run (the `==`-for-`=` slip). -/
theorem pageSetsCore_first_small (n perSet firstSet : ℕ) (hn : n ≠ 0)
    (huf : firstSet ≠ 0 ∧ firstSet ≠ perSet) (hl : firstSet < n)
    (hq : (n - firstSet) / perSet = 0) :
    pageSetsCore n perSet firstSet =
      if firstSet = (n - firstSet) % perSet then [(1, firstSet)]
      else [(1, firstSet), (1, (n - firstSet) % perSet)] := by
  have h1 : min n firstSet = firstSet := by omega
  have h2 : n - firstSet ≠ 0 := by omega
  have hr : (n - firstSet) % perSet ≠ 0 := by
    intro h
    have := Nat.div_add_mod (n - firstSet) perSet
    rw [hq, h] at this
    omega
  simp [pageSetsCore, hn, huf, h1, h2, hq, hr]

theorem one_le_of_div_ne_zero {a b : ℕ} (h : a / b ≠ 0) : 1 ≤ b := by
  rcases Nat.eq_zero_or_pos b with hb | hb
  · rw [hb] at h; simp at h
  · omega

/-- Every run emitted by `pageSets()` has a positive set count and a
positive set length. -/
theorem pageSetsCore_pos (n perSet firstSet : ℕ) :
    ∀ cl ∈ pageSetsCore n perSet firstSet, 1 ≤ cl.1 ∧ 1 ≤ cl.2 := by
  intro cl hcl
  by_cases hn : n = 0
  · rw [hn, pageSetsCore_nil] at hcl; simp at hcl
  by_cases huf : firstSet ≠ 0 ∧ firstSet ≠ perSet
  · by_cases hl : n ≤ firstSet
    · rw [pageSetsCore_first_all _ _ _ hn huf hl] at hcl
      simp at hcl
      subst hcl
      exact ⟨le_refl 1, by omega⟩
    · push_neg at hl
      by_cases hq : (n - firstSet) / perSet = 0
      · rw [pageSetsCore_first_small _ _ _ hn huf hl hq] at hcl
        have hfs : 1 ≤ firstSet := by omega
        have hr : (n - firstSet) % perSet ≠ 0 := by
          intro h
          have := Nat.div_add_mod (n - firstSet) perSet
          rw [hq, h] at this
          omega
        split at hcl
        next hmg =>
          simp at hcl
          subst hcl
          exact ⟨le_refl 1, hfs⟩
        next hmg =>
          simp at hcl
          rcases hcl with hcl | hcl <;> subst hcl
          · exact ⟨le_refl 1, hfs⟩
          · exact ⟨le_refl 1, by omega⟩
      · rw [pageSetsCore_first_big _ _ _ hn huf hl hq] at hcl
        have hfs : 1 ≤ firstSet := by omega
        have hq1 : 1 ≤ (n - firstSet) / perSet := Nat.pos_of_ne_zero hq
        have hp1 : 1 ≤ perSet := one_le_of_div_ne_zero hq
        split at hcl
        next hr =>
          simp at hcl
          rcases hcl with hcl | hcl <;> subst hcl <;> constructor <;> simp <;> omega
        next hr =>
          simp at hcl
          rcases hcl with hcl | hcl | hcl <;> subst hcl <;> constructor <;> simp <;> omega
  · have huf' : firstSet = 0 ∨ firstSet = perSet := by tauto
    by_cases hq : n / perSet = 0
    · rw [pageSetsCore_noFirst_small _ _ _ hn huf' hq] at hcl
      have hr : n % perSet ≠ 0 := by
        intro h
        have := Nat.div_add_mod n perSet
        rw [hq, h] at this
        omega
      simp at hcl
      subst hcl
      exact ⟨le_refl 1, by omega⟩
    · rw [pageSetsCore_noFirst _ _ _ hn huf' hq] at hcl
      have hq1 : 1 ≤ n / perSet := Nat.pos_of_ne_zero hq
      have hp1 : 1 ≤ perSet := one_le_of_div_ne_zero hq
      split at hcl
      next hr =>
        simp at hcl
        subst hcl
        exact ⟨hq1, hp1⟩
      next hr =>
        simp at hcl
        rcases hcl with hcl | hcl <;> subst hcl <;> constructor <;> simp <;> omega

/-- The spec property C1 claims for `pageSets()`: the runs cover the page
count.  With the drop-the-leftover slip this only holds as `≤`. -/
theorem runsSum_pageSetsCore_le (n perSet firstSet : ℕ) :
    runsSum (pageSetsCore n perSet firstSet) ≤ n := by
  by_cases hn : n = 0
  · rw [hn, pageSetsCore_nil]; simp [runsSum]
  by_cases huf : firstSet ≠ 0 ∧ firstSet ≠ perSet
  · by_cases hl : n ≤ firstSet
    · rw [pageSetsCore_first_all _ _ _ hn huf hl]; simp [runsSum]
    · push_neg at hl
      by_cases hq : (n - firstSet) / perSet = 0
      · rw [pageSetsCore_first_small _ _ _ hn huf hl hq]
        have hdm := Nat.div_add_mod (n - firstSet) perSet
        rw [hq] at hdm
        split <;> simp [runsSum] <;> omega
      · rw [pageSetsCore_first_big _ _ _ hn huf hl hq]
        have hdm := Nat.div_add_mod (n - firstSet) perSet
        rw [Nat.mul_comm] at hdm
        generalize hk : (n - firstSet) / perSet * perSet = k at hdm ⊢
        split <;> simp [runsSum] <;> omega
  · have huf' : firstSet = 0 ∨ firstSet = perSet := by tauto
    by_cases hq : n / perSet = 0
    · rw [pageSetsCore_noFirst_small _ _ _ hn huf' hq]
      have hdm := Nat.div_add_mod n perSet
      rw [hq] at hdm
      simp [runsSum]
      omega
    · rw [pageSetsCore_noFirst _ _ _ hn huf' hq]
      have hdm := Nat.div_add_mod n perSet
      rw [Nat.mul_comm] at hdm
      generalize hk : n / perSet * perSet = k at hdm ⊢
      split <;> simp [runsSum] <;> omega

theorem pageSets_pos (L : Layout) :
    ∀ cl ∈ L.pageSets, 1 ≤ cl.1 ∧ 1 ≤ cl.2 :=
  pageSetsCore_pos L.pages.length L.pagesPerSet L.pagesFirstSet

theorem runsSum_pageSets_le (L : Layout) :
    runsSum L.pageSets ≤ L.pages.length :=
  runsSum_pageSetsCore_le L.pages.length L.pagesPerSet L.pagesFirstSet

/-- On a run list with positive runs, the reference walk at relative
index 0 can only answer set 0. -/
theorem specSetWalk_zero (rs : List (ℕ × ℕ))
    (hpos : ∀ cl ∈ rs, 1 ≤ cl.1 ∧ 1 ≤ cl.2)
    (w : ℕ) (hw : specSetWalk rs 0 = some w) : w = 0 := by
  cases rs with
  | nil => simp [specSetWalk] at hw
  | cons cl rs =>
      obtain ⟨c, l⟩ := cl
      have h := hpos (c, l) (by simp)
      have hcl : 0 < c * l := Nat.mul_pos (by omega) (by omega)
      simp [specSetWalk, hcl] at hw
      omega

/-- The loop of `pageSet()` agrees with the reference walk wherever the
walk yields a value. -/
theorem pageSetGo_eq_walk (rs : List (ℕ × ℕ))
    (hpos : ∀ cl ∈ rs, 1 ≤ cl.1 ∧ 1 ≤ cl.2) :
    ∀ s p i v, s ≤ i → specSetWalk rs (i - s) = some v →
      pageSetGo rs s p i = p + v := by
  induction rs with
  | nil => intro s p i v _ hw; simp [specSetWalk] at hw
  | cons cl rs ih =>
      obtain ⟨c, l⟩ := cl
      intro s p i v hs hw
      have hcl := hpos (c, l) (by simp)
      have hpos' : ∀ x ∈ rs, 1 ≤ x.1 ∧ 1 ≤ x.2 := fun x hx => hpos x (by simp [hx])
      by_cases hin : i - s < c * l
      · simp only [specSetWalk, if_pos hin, Option.some.injEq] at hw
        have hcode : ¬ (s + c * l < i) := by omega
        simp only [pageSetGo, if_neg hcode]
        omega
      · simp only [specSetWalk, if_neg hin] at hw
        obtain ⟨w, hw', hvw⟩ := Option.map_eq_some'.mp hw
        by_cases hlt : s + c * l < i
        · simp only [pageSetGo, if_pos hlt]
          have hsub : i - (s + c * l) = i - s - c * l := by omega
          have hrec := ih hpos' (s + c * l) (p + c) i w (by omega)
            (by rw [hsub]; exact hw')
          omega
        · simp only [pageSetGo, if_neg hlt]
          have h1 : i - s = c * l := by omega
          have hl1 : 0 < l := by omega
          have h2 : c * l / l = c := Nat.mul_div_left c hl1
          have hw0 : specSetWalk rs 0 = some w := by
            have hz : i - s - c * l = 0 := by omega
            rw [hz] at hw'
            exact hw'
          have hwz : w = 0 := specSetWalk_zero rs hpos' w hw0
          rw [h1, h2]
          omega

/-- The loop of `pageSet()` answers 0 once the index lies strictly beyond
all the runs (the method's fall-through `return 0`). -/
theorem pageSetGo_overrun (rs : List (ℕ × ℕ)) :
    ∀ s p i, s + runsSum rs < i → pageSetGo rs s p i = 0 := by
  induction rs with
  | nil => intro s p i _; rfl
  | cons cl rs ih =>
      obtain ⟨c, l⟩ := cl
      intro s p i h
      have hsum : runsSum ((c, l) :: rs) = c * l + runsSum rs := by simp [runsSum]
      rw [hsum] at h
      have hlt : s + c * l < i := by omega
      simp only [pageSetGo, if_pos hlt]
      exact ih (s + c * l) (p + c) i (by omega)

end PageSetLemmas

section ConcreteLayouts

/-- A page with a given natural size at 72 dpi and unit scale, as used by
the concrete test layouts below. -/
def mkPage (w h : ℤ) : Page :=
  { pageWidth := (w : ℚ), pageHeight := (h : ℚ), width := w, height := h }

/-- Two pages, `pagesFirstSet = 1`, `pagesPerSet = 3`: the configuration
on which the leftover run is dropped. -/
def layoutTwoPages : Layout :=
  { pages := [mkPage 100 50, mkPage 100 50], pagesFirstSet := 1, pagesPerSet := 3 }

/-- One page, default set parameters. -/
def layoutOnePage : Layout := { pages := [mkPage 100 50] }

/-- Seven pages, `pagesFirstSet = 1`, `pagesPerSet = 3`: page sets
`{0}`, `{1,2,3}`, `{4,5,6}`. -/
def layoutSeven : Layout :=
  { pages := List.replicate 7 (mkPage 100 50), pagesFirstSet := 1, pagesPerSet := 3 }

end ConcreteLayouts

section ClaimC1

/-- C1 (code_bug evidence): on a layout with 2 pages, `pagesFirstSet = 1`
and `pagesPerSet = 3`, `pageSets()` returns `[(1, 1)]`: the trailing
leftover run `(1, 1)` was dropped by the no-op merge line
`result[-1] == (result[-1][0] + 1, left)`, so the runs sum to 1 while the
layout holds 2 pages — contradicting both the claim and the method's own
docstring ("The sum of all (count * length) should be the total length of
the layout"). -/
theorem pageSets_drops_leftover_run :
    layoutTwoPages.pageSets = [(1, 1)] ∧
    runsSum layoutTwoPages.pageSets = 1 ∧
    layoutTwoPages.count = 2 ∧
    layoutTwoPages.pageSets ≠ [] := by
  refine ⟨by decide, by decide, by decide, by decide⟩

/-- C1 (intent): the same configuration under the intended merge (what the
slip was meant to do: `result[-1] = (result[-1][0] + 1, left)`) would
produce `[(2, 1)]`, whose runs do sum to the page count. -/
theorem pageSets_intended_merge_sums :
    runsSum [(2, 1)] = layoutTwoPages.count := by decide

end ClaimC1

section ClaimC2

/-- C2: wherever the reference walk over `pageSets()` (accumulate page
counts until the index falls within a run's span) yields a set index,
`pageSet(index)` returns exactly that index. -/
theorem pageSet_matches_run_walk (L : Layout) (i v : ℕ)
    (hps : 1 ≤ L.pagesPerSet)
    (hw : specSetWalk L.pageSets i = some v) :
    L.pageSet i = v := by
  have h := pageSetGo_eq_walk L.pageSets (pageSets_pos L) 0 0 i v
    (Nat.zero_le i) (by simpa using hw)
  simpa [Layout.pageSet] using h

/-- C2 witness: on the seven-page layout with sets `{0},{1,2,3},{4,5,6}`,
page 4 is in set 2, and `pageSet 4 = 2`. -/
theorem pageSet_matches_run_walk_witness :
    layoutSeven.pageSet 4 = 2 :=
  pageSet_matches_run_walk layoutSeven 4 2 (by decide) (by decide)

end ClaimC2

section ClaimC3

/-- C3 counterexample: on a non-empty one-page layout the index 1 is out
of range (the valid range is `[0, 1)`), yet `pageSet 1 = 1`, not the
claimed first page set 0: the final loop iteration computes
`p + (index - s) // length` before the fall-through `return 0` is
reached. -/
theorem pageSet_out_of_range_not_zero :
    layoutOnePage.pages ≠ [] ∧
    layoutOnePage.pages.length = 1 ∧
    layoutOnePage.pageSet 1 = 1 ∧
    layoutOnePage.pageSet 1 ≠ 0 := by
  refine ⟨by decide, by decide, by decide, by decide⟩

/-- C3 amended: on a non-empty layout, `pageSet(index)` returns the first
page set (0) for every index *strictly greater* than the page count (the
loop then runs off the runs and falls through to `return 0`); the
out-of-range index equal to the page count need not be clamped to 0, as
the counterexample shows. -/
theorem pageSet_beyond_count_zero (L : Layout) (i : ℕ)
    (hps : 1 ≤ L.pagesPerSet) (hne : L.pages ≠ [])
    (hi : L.pages.length < i) :
    L.pageSet i = 0 := by
  unfold Layout.pageSet
  apply pageSetGo_overrun
  have h := runsSum_pageSets_le L
  omega

/-- C3 amended, witness: the one-page layout at index 2. -/
theorem pageSet_beyond_count_zero_witness :
    layoutOnePage.pageSet 2 = 0 :=
  pageSet_beyond_count_zero layoutOnePage 2 (by decide) (by decide) (by decide)

end ClaimC3

section ClaimC4

/-- For bounds `0 ≤ a ≤ b`, Python's `l[a:b]` is plain drop-and-take. -/
theorem pySlice_eq_drop_take (l : List α) (a b : ℤ) (ha : 0 ≤ a) (hab : a ≤ b) :
    pySlice l a b = (l.drop a.toNat).take (b - a).toNat := by
  unfold pySlice
  simp only []
  rw [if_neg (by omega : ¬ a < 0), if_neg (by omega : ¬ b < 0)]
  by_cases hbn : b ≤ (l.length : ℤ)
  · rw [min_eq_left hbn, min_eq_left (le_trans hab hbn)]
  · push_neg at hbn
    rw [min_eq_right (le_of_lt hbn)]
    by_cases han : a ≤ (l.length : ℤ)
    · rw [min_eq_left han]
      have hlen : (l.drop a.toNat).length = l.length - a.toNat := by simp
      rw [List.take_of_length_le (by omega), List.take_of_length_le (by omega)]
    · push_neg at han
      rw [min_eq_right (le_of_lt han)]
      have hln : ((l.length : ℤ)).toNat = l.length := by omega
      rw [hln, List.drop_length, List.drop_eq_nil_of_le (by omega : l.length ≤ a.toNat)]
      simp

/-- The loop of `displayPages()` returns, for any requested set index
within range, exactly the slice of the pages belonging to that set. -/
theorem dispGo_in_range (pages : List Page) (rs : List (ℕ × ℕ))
    (hpos : ∀ cl ∈ rs, 1 ≤ cl.1 ∧ 1 ≤ cl.2) :
    ∀ (p s num : ℤ), p ≤ num → num < p + (setsCount rs : ℤ) → 0 ≤ s →
      dispGo pages rs p s num =
        some ((pages.drop (s.toNat + (setStartLen rs (num - p).toNat).1)).take
          (setStartLen rs (num - p).toNat).2) := by
  induction rs with
  | nil =>
      intro p s num h1 h2 _
      simp [setsCount] at h2
      omega
  | cons cl rs ih =>
      obtain ⟨c, l⟩ := cl
      intro p s num h1 h2 hs
      have hcl := hpos (c, l) (by simp)
      have hpos' : ∀ x ∈ rs, 1 ≤ x.1 ∧ 1 ≤ x.2 := fun x hx => hpos x (by simp [hx])
      have hcnt : setsCount ((c, l) :: rs) = c + setsCount rs := by simp [setsCount]
      by_cases hc : p + (c : ℤ) ≤ num
      · -- continue into the later runs
        simp only [dispGo, if_pos hc]
        have hrec := ih hpos' (p + c) (s + c * l) num hc
          (by rw [hcnt] at h2; push_cast at h2 ⊢; omega)
          (by positivity)
        rw [hrec]
        have hk : ¬ ((num - p).toNat < c) := by omega
        have hk' : (num - p).toNat - c = (num - (p + c)).toNat := by omega
        have hcast : ((c : ℤ) * (l : ℤ)) = ((c * l : ℕ) : ℤ) := by push_cast; ring
        have harith : (s + (c : ℤ) * (l : ℤ)).toNat + (setStartLen rs (num - (p + c)).toNat).1
            = s.toNat + (c * l + (setStartLen rs (num - (p + c)).toNat).1) := by
          rw [hcast]
          omega
        simp only [setStartLen, if_neg hk, hk']
        rw [harith]
      · -- the requested set is inside this run
        simp only [dispGo, if_neg hc]
        push_neg at hc
        have hk : (num - p).toNat < c := by omega
        have hnum : ((num - p).toNat : ℤ) = num - p := by omega
        have hcast : (num - p) * (l : ℤ) = (((num - p).toNat * l : ℕ) : ℤ) := by
          push_cast
          rw [hnum]
        have ha : (0 : ℤ) ≤ s + (num - p) * l := by
          rw [hcast]; omega
        rw [pySlice_eq_drop_take _ _ _ ha (by omega)]
        have h1' : (s + (num - p) * l).toNat = s.toNat + (num - p).toNat * l := by
          rw [hcast]; omega
        have h2' : (s + (num - p) * l + l - (s + (num - p) * l)).toNat = l := by omega
        simp only [setStartLen, if_pos hk]
        rw [h1', h2']

/-- `pageSets()` is non-empty whenever the layout has pages. -/
theorem pageSetsCore_ne_nil (n perSet firstSet : ℕ) (hn : n ≠ 0) :
    pageSetsCore n perSet firstSet ≠ [] := by
  by_cases huf : firstSet ≠ 0 ∧ firstSet ≠ perSet
  · by_cases hl : n ≤ firstSet
    · rw [pageSetsCore_first_all _ _ _ hn huf hl]; simp
    · push_neg at hl
      by_cases hq : (n - firstSet) / perSet = 0
      · rw [pageSetsCore_first_small _ _ _ hn huf hl hq]
        split <;> simp
      · rw [pageSetsCore_first_big _ _ _ hn huf hl hq]
        split <;> simp
  · have huf' : firstSet = 0 ∨ firstSet = perSet := by tauto
    by_cases hq : n / perSet = 0
    · rw [pageSetsCore_noFirst_small _ _ _ hn huf' hq]; simp
    · rw [pageSetsCore_noFirst _ _ _ hn huf' hq]
      split <;> simp

theorem setsCount_pos (rs : List (ℕ × ℕ)) (hne : rs ≠ [])
    (hpos : ∀ cl ∈ rs, 1 ≤ cl.1 ∧ 1 ≤ cl.2) : 1 ≤ setsCount rs := by
  cases rs with
  | nil => exact absurd rfl hne
  | cons cl rs =>
      have h := hpos cl (by simp)
      simp [setsCount]
      omega

theorem pageSetCount_pos (L : Layout) (hne : L.pages ≠ []) :
    1 ≤ L.pageSetCount :=
  setsCount_pos _ (pageSetsCore_ne_nil _ _ _ (by simpa using hne)) (pageSets_pos L)

/-- C4 counterexample: two pages, non-continuous, `currentPageSet = -1`
(an out-of-range index).  The clamp `if num and num >= count` does not
fire for negative values, and the run loop then returns the Python slice
`self[-1:0]`, which is empty — not the last page set `[page 1]` the claim
requires. -/
def layoutNegSet : Layout :=
  { pages := [mkPage 100 50, mkPage 60 40],
    continuousMode := false, currentPageSet := -1 }

theorem displayPages_negative_not_clamped :
    layoutNegSet.continuousMode = false ∧
    layoutNegSet.currentPageSet = -1 ∧
    layoutNegSet.pageSetCount = 2 ∧
    layoutNegSet.displayPages = [] ∧
    layoutNegSet.specSetPages 1 = [mkPage 60 40] ∧
    layoutNegSet.displayPages ≠ layoutNegSet.specSetPages 1 := by
  refine ⟨rfl, rfl, by decide, by decide, by decide, by decide⟩

/-- C4 amended: `displayPages()` returns all pages in continuous mode;
otherwise, for a *non-negative* `currentPageSet` on a non-empty layout it
returns exactly the pages of the selected page set, clamping a too-large
set index to the last valid set (`pageSetCount() - 1`).  (A negative
`currentPageSet` is not clamped: the counterexample above yields an empty
list.) -/
theorem displayPages_select (L : Layout) (hps : 1 ≤ L.pagesPerSet) :
    (L.continuousMode = true → L.displayPages = L.pages) ∧
    (L.continuousMode = false → L.pages ≠ [] → 0 ≤ L.currentPageSet →
      L.displayPages =
        L.specSetPages (min L.currentPageSet ((L.pageSetCount : ℤ) - 1)).toNat) := by
  constructor
  · intro hcont
    simp [Layout.displayPages, Layout.dispPages, hcont]
  · intro hcont hne hcur
    have hcnt : 1 ≤ L.pageSetCount := pageSetCount_pos L hne
    have hclamp : L.clampedSet = min L.currentPageSet ((L.pageSetCount : ℤ) - 1) := by
      unfold Layout.clampedSet
      simp only [hcont, Bool.false_eq_true, if_false]
      split_ifs with h
      · omega
      · omega
    have hrange1 : (0 : ℤ) ≤ L.clampedSet := by omega
    have hrange2 : L.clampedSet < (0 : ℤ) + (setsCount L.pageSets : ℤ) := by
      have : L.pageSetCount = setsCount L.pageSets := rfl
      omega
    have hgo := dispGo_in_range L.pages L.pageSets (pageSets_pos L)
      0 0 L.clampedSet hrange1 hrange2 le_rfl
    simp only [Layout.displayPages, Layout.dispPages, hcont,
      Bool.false_eq_true, if_false]
    rw [hgo]
    simp [Layout.specSetPages, hclamp]

/-- C4 amended, witness: seven pages in sets `{0},{1,2,3},{4,5,6}`,
non-continuous, `currentPageSet = 5`: clamped to set 2. -/
def layoutSevenPaged : Layout :=
  { pages := List.replicate 7 (mkPage 100 50),
    pagesFirstSet := 1, pagesPerSet := 3,
    continuousMode := false, currentPageSet := 5 }

theorem displayPages_select_witness :
    layoutSevenPaged.displayPages =
      layoutSevenPaged.specSetPages
        (min layoutSevenPaged.currentPageSet
          ((layoutSevenPaged.pageSetCount : ℤ) - 1)).toNat :=
  (displayPages_select layoutSevenPaged (by decide)).2 rfl (by decide) (by decide)

end ClaimC4

section ClaimC10

/-- An empty layout (all attributes at their class defaults). -/
def layoutEmpty : Layout := {}

/-- C10: `bool(layout)` is always `True` — `__bool__` is overridden to
ignore the list contents — so emptiness is observable only through
`empty()` / `count() == 0`, which agree with the page list being empty. -/
theorem layout_always_truthy (L : Layout) :
    L.pyBool = true ∧ (L.empty = true ↔ L.count = 0) ∧ (L.empty = true ↔ L.pages = []) := by
  refine ⟨rfl, ?_, ?_⟩ <;> simp [Layout.empty, Layout.count, List.length_eq_zero]

/-- C10 witness: the zero-page layout is truthy yet `empty()`. -/
theorem layout_always_truthy_witness :
    layoutEmpty.pyBool = true ∧ layoutEmpty.empty = true :=
  ⟨(layout_always_truthy layoutEmpty).1, by decide⟩

end ClaimC10

section ClaimC9

/-- `QRect.contains(point)`: edges included (so a zero-width or
zero-height rectangle contains nothing). -/
def rectContains (p : Page) (px py : ℤ) : Bool :=
  decide (p.x ≤ px ∧ px ≤ p.x + p.width - 1 ∧ p.y ≤ py ∧ py ≤ p.y + p.height - 1)

/-- Squared euclidean distance from a point to a page's rectangle (zero
inside). -/
def rectDist2 (p : Page) (px py : ℤ) : ℤ :=
  let dx := max 0 (max (p.x - px) (px - (p.x + p.width - 1)))
  let dy := max 0 (max (p.y - py) (py - (p.y + p.height - 1)))
  dx * dx + dy * dy

/-- Selection of the nearest candidate: first strictly-smaller distance
wins, so ties keep the earlier (index-order) page. -/
def nearestFold (px py : ℤ) (first : Page) (rest : List Page) : Page :=
  rest.foldl (fun best q => if rectDist2 q px py < rectDist2 best px py then q else best) first

/-- Modelled from the spec: the `rectangles` spatial-index module is not
among the sources.  §4.4 nearest query: among the objects whose rectangle
does not contain the point, return one at minimum distance from the point
to its rectangle (ties broken by index order), `none` if that set is
empty. -/
def nearestRect (pages : List Page) (px py : ℤ) : Option Page :=
  match pages.filter (fun p => !rectContains p px py) with
  | [] => none
  | p :: ps => some (nearestFold px py p ps)

/-- `AbstractPageLayout.nearestPageAt(point)`: the nearest query over the
displayed pages. -/
def Layout.nearestPageAt (L : Layout) (px py : ℤ) : Option Page :=
  nearestRect L.displayPages px py

theorem nearestFold_mem (px py : ℤ) :
    ∀ (rest : List Page) (first : Page), nearestFold px py first rest ∈ first :: rest := by
  intro rest
  induction rest with
  | nil => intro first; simp [nearestFold]
  | cons q rest ih =>
      intro first
      simp only [nearestFold, List.foldl_cons]
      rw [List.mem_cons, List.mem_cons]
      by_cases hc : rectDist2 q px py < rectDist2 first px py
      · rw [if_pos hc]
        have h := ih q
        simp only [nearestFold] at h
        rw [List.mem_cons] at h
        rcases h with h | h
        · exact Or.inr (Or.inl h)
        · exact Or.inr (Or.inr h)
      · rw [if_neg hc]
        have h := ih first
        simp only [nearestFold] at h
        rw [List.mem_cons] at h
        rcases h with h | h
        · exact Or.inl h
        · exact Or.inr (Or.inr h)

theorem nearestFold_min (px py : ℤ) :
    ∀ (rest : List Page) (first : Page) (z : Page), z ∈ first :: rest →
      rectDist2 (nearestFold px py first rest) px py ≤ rectDist2 z px py := by
  intro rest
  induction rest with
  | nil =>
      intro first z hz
      rw [List.mem_cons] at hz
      rcases hz with hz | hz
      · subst hz; simp [nearestFold]
      · simp at hz
  | cons q rest ih =>
      intro first z hz
      rw [List.mem_cons, List.mem_cons] at hz
      simp only [nearestFold, List.foldl_cons]
      by_cases hc : rectDist2 q px py < rectDist2 first px py
      · rw [if_pos hc]
        have hq : rectDist2 (nearestFold px py q rest) px py ≤ rectDist2 q px py :=
          ih q q (by simp)
        simp only [nearestFold] at hq
        rcases hz with hz | hz | hz
        · subst hz
          refine le_trans hq (by omega)
        · subst hz
          exact hq
        · have h := ih q z (by simp [hz])
          simpa [nearestFold] using h
      · rw [if_neg hc]
        have hf : rectDist2 (nearestFold px py first rest) px py ≤ rectDist2 first px py :=
          ih first first (by simp)
        simp only [nearestFold] at hf
        rcases hz with hz | hz | hz
        · subst hz
          exact hf
        · subst hz
          refine le_trans hf (by omega)
        · have h := ih first z (by simp [hz])
          simpa [nearestFold] using h

/-- The display list of an empty layout is empty. -/
theorem displayPages_nil (L : Layout) (h : L.pages = []) : L.displayPages = [] := by
  unfold Layout.displayPages Layout.dispPages
  by_cases hc : L.continuousMode
  · simp [hc, h]
  · have hrs : L.pageSets = [] := by
      simp [Layout.pageSets, h, pageSetsCore_nil]
    simp [hc, hrs, dispGo, h]

/-- C9 (spec-modelled): `nearestPageAt(point)` returns `None` on an empty
layout, and otherwise any page it returns is a displayed page that does
not contain the point and whose rectangle distance to the point is
minimal among the displayed pages not containing it. -/
theorem nearestPageAt_spec (L : Layout) (px py : ℤ) :
    (L.pages = [] → L.nearestPageAt px py = none) ∧
    (∀ pg, L.nearestPageAt px py = some pg →
      pg ∈ L.displayPages ∧ rectContains pg px py = false ∧
      ∀ q ∈ L.displayPages, rectContains q px py = false →
        rectDist2 pg px py ≤ rectDist2 q px py) := by
  constructor
  · intro h
    unfold Layout.nearestPageAt nearestRect
    rw [displayPages_nil L h]
    rfl
  · intro pg hpg
    unfold Layout.nearestPageAt nearestRect at hpg
    rcases hF : L.displayPages.filter (fun p => !rectContains p px py) with _ | ⟨p, ps⟩
    · rw [hF] at hpg; simp at hpg
    · rw [hF] at hpg
      simp only [Option.some.injEq] at hpg
      subst hpg
      have hmem : nearestFold px py p ps ∈ p :: ps := nearestFold_mem px py ps p
      have hmemF : nearestFold px py p ps ∈
          L.displayPages.filter (fun p => !rectContains p px py) := by
        rw [hF]; exact hmem
      have hsplit := List.mem_filter.mp hmemF
      refine ⟨hsplit.1, by simpa using hsplit.2, ?_⟩
      intro q hq hqc
      have hqF : q ∈ L.displayPages.filter (fun p => !rectContains p px py) :=
        List.mem_filter.mpr ⟨hq, by simp [hqc]⟩
      rw [hF] at hqF
      exact nearestFold_min px py ps p q hqF

/-- C9 witness: two pages stacked at known positions, probe point inside
neither; the nearer (first) page is returned, not the page containing the
probe when the probe is inside one. -/
def layoutTwoPlaced : Layout :=
  { pages := [{ mkPage 10 10 with x := 0, y := 0 },
              { mkPage 10 10 with x := 0, y := 100 }] }

theorem nearestPageAt_spec_witness :
    rectContains { mkPage 10 10 with x := 0, y := 0 } 20 0 = false ∧
    rectDist2 { mkPage 10 10 with x := 0, y := 0 } 20 0 ≤
      rectDist2 { mkPage 10 10 with x := 0, y := 100 } 20 0 := by
  have h := (nearestPageAt_spec layoutTwoPlaced 20 0).2
    { mkPage 10 10 with x := 0, y := 0 } (by decide)
  exact ⟨h.2.1, h.2.2 _ (by decide) (by decide)⟩

end ClaimC9

section ClaimC7

/-- Modelled from the spec: the `rectangles` spatial-index module is not
among the sources.  §4.4 point query: a page whose rectangle contains the
point, deterministically the first in index order, `none` if no match.
This is `AbstractPageLayout.pageAt(point)` over the displayed pages. -/
def Layout.pageAt (L : Layout) (px py : ℤ) : Option Page :=
  L.displayPages.find? (fun p => rectContains p px py)

/-- Python's `a or b` for two optional pages (a `Page` object is always
truthy). -/
def optOr (a b : Option Page) : Option Page :=
  match a with
  | some x => some x
  | none => b

/-- `AbstractPageLayout.pos2offset(pos)`: identify the page under (or
nearest to) the point and return `(index, fractional x, fractional y)`
relative to that page, or `(-1, fractions of the layout size)` when there
is no page at all. -/
def Layout.pos2offset (L : Layout) (px py : ℤ) : ℤ × ℚ × ℚ :=
  match optOr (L.pageAt px py) (L.nearestPageAt px py) with
  | some page =>
      ((L.pages.indexOf page : ℤ),
        ((px - page.x : ℤ) : ℚ) / (page.width : ℚ),
        ((py - page.y : ℤ) : ℚ) / (page.height : ℚ))
  | none => (-1, (px : ℚ) / (L.width : ℚ), (py : ℚ) / (L.height : ℚ))

/-- `AbstractPageLayout.offset2pos(offset)`: map an offset triple back to
a layout position (`page.pos() + QPoint(round(x*w), round(y*h))`, or the
same relative to the whole layout when the index is out of range).  The
in-range branch reads `self[i]`; the guard makes the default of `getD`
unreachable. -/
def Layout.offset2pos (L : Layout) (o : ℤ × ℚ × ℚ) : ℤ × ℤ :=
  if o.1 < 0 ∨ (L.pages.length : ℤ) ≤ o.1 then
    (pyRound (o.2.1 * (L.width : ℚ)), pyRound (o.2.2 * (L.height : ℚ)))
  else
    let page := L.pages.getD o.1.toNat {}
    (page.x + pyRound (o.2.1 * (page.width : ℚ)),
     page.y + pyRound (o.2.2 * (page.height : ℚ)))

theorem pyRound_intCast (z : ℤ) : pyRound ((z : ℚ)) = z := by
  unfold pyRound
  rw [Int.floor_intCast]
  rw [if_pos]
  rw [sub_self]
  norm_num

theorem pySlice_subset (l : List α) (a b : ℤ) :
    ∀ x ∈ pySlice l a b, x ∈ l := by
  intro x hx
  unfold pySlice at hx
  exact List.mem_of_mem_drop (List.mem_of_mem_take hx)

theorem dispGo_subset (pages : List Page) (rs : List (ℕ × ℕ)) :
    ∀ (p s num : ℤ) ps, dispGo pages rs p s num = some ps → ∀ x ∈ ps, x ∈ pages := by
  induction rs with
  | nil => intro p s num ps h; simp [dispGo] at h
  | cons cl rs ih =>
      obtain ⟨c, l⟩ := cl
      intro p s num ps h
      by_cases hc : p + (c : ℤ) ≤ num
      · rw [dispGo, if_pos hc] at h
        exact ih (p + c) (s + c * l) num ps h
      · rw [dispGo, if_neg hc] at h
        simp only [Option.some.injEq] at h
        subst h
        exact pySlice_subset pages _ _

/-- Displayed pages are always pages of the layout. -/
theorem displayPages_subset (L : Layout) :
    ∀ x ∈ L.displayPages, x ∈ L.pages := by
  intro x hx
  unfold Layout.displayPages Layout.dispPages at hx
  by_cases hc : L.continuousMode
  · simpa [hc] using hx
  · simp only [hc, Bool.false_eq_true, if_false] at hx
    rcases hd : dispGo L.pages L.pageSets 0 0 L.clampedSet with _ | ps
    · rw [hd] at hx
      exact hx
    · rw [hd] at hx
      exact dispGo_subset L.pages L.pageSets 0 0 L.clampedSet ps hd x hx

/-- C7: whenever the point lies on a displayed page (`pageAt` finds a
page — in particular for any point strictly inside a displayed page's
rectangle), `offset2pos (pos2offset p) = p` exactly. -/
theorem offset_roundtrip (L : Layout) (px py : ℤ) (pg : Page)
    (hfind : L.pageAt px py = some pg) :
    L.offset2pos (L.pos2offset px py) = (px, py) := by
  have hfind' := hfind
  unfold Layout.pageAt at hfind'
  have hcont : rectContains pg px py = true := by
    have h := List.find?_some hfind'
    simpa using h
  have hmem : pg ∈ L.displayPages := List.mem_of_find?_eq_some hfind'
  have hmemP : pg ∈ L.pages := displayPages_subset L pg hmem
  have hwh : 1 ≤ pg.width ∧ 1 ≤ pg.height := by
    simp only [rectContains, decide_eq_true_eq] at hcont
    omega
  have hor : optOr (L.pageAt px py) (L.nearestPageAt px py) = some pg := by
    rw [hfind]; rfl
  have hi : L.pages.indexOf pg < L.pages.length := List.indexOf_lt_length.mpr hmemP
  have hget : L.pages.getD (L.pages.indexOf pg) {} = pg := by
    rw [List.getD_eq_getElem _ _ hi]
    exact List.indexOf_get hi
  unfold Layout.pos2offset
  rw [hor]
  unfold Layout.offset2pos
  rw [if_neg (by push_neg; constructor <;> omega)]
  simp only [Int.toNat_natCast, hget]
  have hwne : ((pg.width : ℚ)) ≠ 0 := by
    exact_mod_cast (by omega : pg.width ≠ (0 : ℤ))
  have hhne : ((pg.height : ℚ)) ≠ 0 := by
    exact_mod_cast (by omega : pg.height ≠ (0 : ℤ))
  rw [div_mul_cancel₀ _ hwne, div_mul_cancel₀ _ hhne,
    pyRound_intCast, pyRound_intCast]
  simp only [Prod.mk.injEq]
  omega

/-- C7 witness: a 10×20 page at (6, 6); the interior point (8, 9) round
trips exactly. -/
def layoutOnePlaced : Layout :=
  { pages := [{ mkPage 10 20 with x := 6, y := 6 }], width := 22, height := 32 }

theorem offset_roundtrip_witness :
    layoutOnePlaced.offset2pos (layoutOnePlaced.pos2offset 8 9) = (8, 9) :=
  offset_roundtrip layoutOnePlaced 8 9 { mkPage 10 20 with x := 6, y := 6 } (by decide)

end ClaimC7

section ClaimC6

/-- Modelled from the spec: `constants.py` is not among the sources.  The
fit mode is any combination of the fit-width and fit-height bits
(`FixedScale` requests nothing, `FitBoth = FitWidth | FitHeight`). -/
def FixedScale : ℕ := 0

/-- Modelled from the spec: the fit-width bit. -/
def FitWidth : ℕ := 1

/-- Modelled from the spec: the fit-height bit. -/
def FitHeight : ℕ := 2

/-- Modelled from the spec: both fit bits. -/
def FitBoth : ℕ := 3

/-- The key of `widestPage()`: the page's effective natural width (an odd
combined rotation swaps the axes). -/
def widthKey (rot : ℕ) (page : Page) : ℚ :=
  if (page.rotation + rot) &&& 1 = 1 then page.pageHeight * page.scaleY
  else page.pageWidth * page.scaleX

/-- The key of `highestPage()`: the page's effective natural height. -/
def heightKey (rot : ℕ) (page : Page) : ℚ :=
  if (page.rotation + rot) &&& 1 = 1 then page.pageWidth * page.scaleX
  else page.pageHeight * page.scaleY

/-- Python's `max(iterable, key=key)`: the first element with maximal key
(`None`-free; the layout methods guard the empty case). -/
def pyMaxBy (key : Page → ℚ) : List Page → Option Page
  | [] => none
  | p :: ps => some (ps.foldl (fun best q => if key best < key q then q else best) p)

/-- `AbstractPageLayout.widestPage()`. -/
def Layout.widestPage (L : Layout) : Option Page :=
  pyMaxBy (widthKey L.rotation) L.pages

/-- `AbstractPageLayout.highestPage()`. -/
def Layout.highestPage (L : Layout) : Option Page :=
  pyMaxBy (heightKey L.rotation) L.pages

/-- Modelled from the spec: `page.zoomForWidth` lives in `page.py`, which
is not among the sources.  §4.1: the zoom factor that makes the page's
effective width equal the given extent at the given rotation and DPI. -/
def Page.zoomForWidth (p : Page) (width : ℤ) (rotation : ℕ) (dpiX : ℚ) : ℚ :=
  (width : ℚ) / (widthKey rotation p * dpiX / 72)

/-- Modelled from the spec: `page.zoomForHeight`, as `zoomForWidth` for
the vertical axis. -/
def Page.zoomForHeight (p : Page) (height : ℤ) (rotation : ℕ) (dpiY : ℚ) : ℚ :=
  (height : ℚ) / (heightKey rotation p * dpiY / 72)

/-- `AbstractPageLayout.zoomFitWidth(width)`: subtract the horizontal
margins, then ask the widest page.  (The `none` arm is unreachable from
`fit()`, which guards `count()`; calling on an empty layout would be an
`AttributeError` in Python.) -/
def Layout.zoomFitWidth (L : Layout) (width : ℤ) : ℚ :=
  match L.widestPage with
  | some p => p.zoomForWidth (width - (L.marginLeft + L.marginRight)) L.rotation L.dpiX
  | none => 0

/-- `AbstractPageLayout.zoomFitHeight(height)`. -/
def Layout.zoomFitHeight (L : Layout) (height : ℤ) : ℚ :=
  match L.highestPage with
  | some p => p.zoomForHeight (height - (L.marginTop + L.marginBottom)) L.rotation L.dpiY
  | none => 0

/-- Python's `min(list)`, `none` for the empty list (where Python raises
`ValueError`); first minimum wins. -/
def pyMin (l : List ℚ) : Option ℚ :=
  match l with
  | [] => none
  | a :: as => some (as.foldl min a)

/-- `AbstractPageLayout.fit(size, mode)`.  The `none` arm mirrors Python's
`ValueError` on `min([])`, reachable only for a `mode` outside the
`ViewMode` domain `0..3`. -/
def Layout.fit (L : Layout) (w h : ℤ) (mode : ℕ) : Layout :=
  if mode ≠ 0 ∧ L.pages.length ≠ 0 then
    let zfs := (if mode &&& FitWidth ≠ 0 then [L.zoomFitWidth w] else [])
      ++ (if mode &&& FitHeight ≠ 0 then [L.zoomFitHeight h] else [])
    match pyMin zfs with
    | some z => { L with zoomFactor := z }
    | none => L
  else L

/-- C6: for every `ViewMode` (`0..3`), `fit` is a no-op when the mode
requests no axis or the layout is empty, and otherwise sets the zoom
factor to the minimum of the zoom factors of the requested axes. -/
theorem fit_spec (L : Layout) (w h : ℤ) (mode : ℕ) (hm : mode ≤ 3) :
    ((mode = 0 ∨ L.pages = []) → L.fit w h mode = L) ∧
    (L.pages ≠ [] →
      (mode = FitWidth → L.fit w h mode = { L with zoomFactor := L.zoomFitWidth w }) ∧
      (mode = FitHeight → L.fit w h mode = { L with zoomFactor := L.zoomFitHeight h }) ∧
      (mode = FitBoth →
        L.fit w h mode =
          { L with zoomFactor := min (L.zoomFitWidth w) (L.zoomFitHeight h) })) := by
  constructor
  · rintro (h0 | hnil)
    · simp [Layout.fit, h0]
    · simp [Layout.fit, hnil]
  · intro hne
    have hlen : L.pages.length ≠ 0 := by
      simpa [List.length_eq_zero] using hne
    refine ⟨?_, ?_, ?_⟩ <;> intro heq <;> subst heq
    · simp [Layout.fit, FitWidth, FitHeight, hlen, pyMin,
        show (1 : ℕ) &&& 1 ≠ 0 by decide, show (1 : ℕ) &&& 2 = 0 by decide]
    · simp [Layout.fit, FitWidth, FitHeight, hlen, pyMin,
        show (2 : ℕ) &&& 1 = 0 by decide, show (2 : ℕ) &&& 2 ≠ 0 by decide]
    · simp [Layout.fit, FitBoth, FitWidth, FitHeight, hlen, pyMin,
        show (3 : ℕ) &&& 1 ≠ 0 by decide, show (3 : ℕ) &&& 2 ≠ 0 by decide]

/-- C6 witness: fitting both axes on a one-page layout takes the minimum
of the two per-axis zoom factors. -/
theorem fit_spec_witness :
    layoutOnePlaced.fit 100 200 3 =
      { layoutOnePlaced with
          zoomFactor := min (layoutOnePlaced.zoomFitWidth 100)
            (layoutOnePlaced.zoomFitHeight 200) } :=
  ((fit_spec layoutOnePlaced 100 200 3 (by decide)).2 (by decide)).2.2 rfl

end ClaimC6

section ClaimC5

/-- Modelled from the spec: `page.computeSize` lives in `page.py`, which
is not among the sources.  §4.1/§6: the on-screen pixel size from the
effective rotation (an odd rotation swaps the axes), the per-axis scale,
the DPI and the zoom factor, rounded to whole pixels.  For C5 only its
determinism in the page's natural attributes matters. -/
def Page.computeSize (p : Page) (rotation : ℕ) (dpiX dpiY zoom : ℚ) : ℤ × ℤ :=
  let w := p.pageWidth * p.scaleX
  let h := p.pageHeight * p.scaleY
  let wh := if rotation &&& 1 = 1 then (h, w) else (w, h)
  (pyRound (wh.1 * dpiX / 72 * zoom), pyRound (wh.2 * dpiY / 72 * zoom))

/-- The body of `updatePageSizes()` for one page: store the effective
rotation `(page.rotation + self.rotation) & 3` and the computed size. -/
def sizePage (rot : ℕ) (dpiX dpiY zoom : ℚ) (p : Page) : Page :=
  let cr := (p.rotation + rot) &&& 3
  let wh := p.computeSize cr dpiX dpiY zoom
  { p with computedRotation := cr, width := wh.1, height := wh.2 }

/-- `AbstractPageLayout.updatePageSizes()`. -/
def Layout.updatePageSizes (L : Layout) : Layout :=
  { L with pages := L.pages.map (sizePage L.rotation L.dpiX L.dpiY L.zoomFactor) }

/-- The loop of the abstract `updatePagePositions()`: stack pages at the
left margin, top to bottom, `spacing` apart. -/
def posWalk (ml sp : ℤ) : ℤ → List Page → List Page
  | _, [] => []
  | top, p :: ps => { p with x := ml, y := top } :: posWalk ml sp (top + p.height + sp) ps

/-- `AbstractPageLayout.updatePagePositions()` (the abstract default). -/
def Layout.updatePagePositions (L : Layout) : Layout :=
  { L with pages := posWalk L.marginLeft L.spacing L.marginTop L.pages }

/-- `AbstractPageLayout.computeGeometry()`: the union of the displayed
pages' rectangles, expanded by the margins. -/
def Layout.computeGeometry (L : Layout) : QRect :=
  (L.dispPages.foldl (fun r p => r.union p.geometry) QRect.null).addMargins
    L.marginLeft L.marginTop L.marginRight L.marginBottom

/-- `AbstractPageLayout.update()`: size pass, position pass, geometry
(whose `displayPages()` call may clamp `currentPageSet`), compare with
the stored geometry, store the new one, and report whether it changed. -/
def Layout.update (L : Layout) : Layout × Bool :=
  let L2 := L.updatePageSizes.updatePagePositions
  let g := L2.computeGeometry
  let changed := decide (L2.geometryRect ≠ g)
  ({ L2 with
      currentPageSet := L2.clampedSet,
      x := g.x1,
      y := g.y1,
      width := g.x2 - g.x1 + 1,
      height := g.y2 - g.y1 + 1 },
   changed)

theorem sizePage_idem (rot : ℕ) (dx dy z : ℚ) (p : Page) :
    sizePage rot dx dy z (sizePage rot dx dy z p) = sizePage rot dx dy z p := rfl

theorem sizePage_pos_comm (rot : ℕ) (dx dy z : ℚ) (p : Page) (a b : ℤ) :
    sizePage rot dx dy z { p with x := a, y := b } =
      { sizePage rot dx dy z p with x := a, y := b } := rfl

/-- Re-running the size pass over already sized-and-positioned pages is
the identity. -/
theorem map_sizePage_posWalk (rot : ℕ) (dx dy z : ℚ) (ml sp : ℤ) :
    ∀ (ps : List Page) (top : ℤ),
      (posWalk ml sp top (ps.map (sizePage rot dx dy z))).map (sizePage rot dx dy z) =
        posWalk ml sp top (ps.map (sizePage rot dx dy z)) := by
  intro ps
  induction ps with
  | nil => intro top; rfl
  | cons p ps ih =>
      intro top
      simp only [List.map_cons, posWalk]
      rw [sizePage_pos_comm, sizePage_idem]
      rw [ih]

/-- Re-running the position pass is the identity. -/
theorem posWalk_idem (ml sp : ℤ) :
    ∀ (qs : List Page) (top : ℤ),
      posWalk ml sp top (posWalk ml sp top qs) = posWalk ml sp top qs := by
  intro qs
  induction qs with
  | nil => intro top; rfl
  | cons q qs ih =>
      intro top
      simp only [posWalk]
      rw [ih]

/-- The clamp is idempotent: a layout whose `currentPageSet` already is a
clamped value (and whose set structure is unchanged) is not clamped
further. -/
theorem clampedSet_stable (N M : Layout)
    (h1 : M.pages.length = N.pages.length) (h2 : M.pagesPerSet = N.pagesPerSet)
    (h3 : M.pagesFirstSet = N.pagesFirstSet) (h4 : M.continuousMode = N.continuousMode)
    (h5 : M.currentPageSet = N.clampedSet) :
    M.clampedSet = N.clampedSet := by
  have hcount : M.pageSetCount = N.pageSetCount := by
    unfold Layout.pageSetCount Layout.pageSets
    rw [h1, h2, h3]
  unfold Layout.clampedSet at h5 ⊢
  rw [h4, hcount, h5]
  by_cases hc : N.continuousMode = true
  · simp [hc]
  · have hc' : N.continuousMode = false := by
      cases hN : N.continuousMode
      · rfl
      · exact absurd hN hc
    simp only [hc', Bool.false_eq_true, if_false]
    split_ifs <;> omega

/-- `dispPages` only depends on the page list, the mode, the set
parameters and the (clamped) current set. -/
theorem dispPages_congr (M N : Layout)
    (hpages : M.pages = N.pages) (hcont : M.continuousMode = N.continuousMode)
    (hper : M.pagesPerSet = N.pagesPerSet) (hfirst : M.pagesFirstSet = N.pagesFirstSet)
    (hclamp : M.clampedSet = N.clampedSet) :
    M.dispPages = N.dispPages := by
  have hsets : M.pageSets = N.pageSets := by
    unfold Layout.pageSets
    rw [hpages, hper, hfirst]
  unfold Layout.dispPages
  rw [hpages, hcont, hclamp, hsets]

/-- `setGeometry` followed by `geometry()` reproduces the rectangle. -/
theorem geometryRect_after_set (M : Layout) (g : QRect) :
    ({ M with
        x := g.x1,
        y := g.y1,
        width := g.x2 - g.x1 + 1,
        height := g.y2 - g.y1 + 1 } : Layout).geometryRect = g := by
  unfold Layout.geometryRect
  obtain ⟨a, b, c, d⟩ := g
  simp only [QRect.mk.injEq]
  refine ⟨trivial, trivial, by ring, by ring⟩

/-- C5: `update()` reports `True` exactly when the stored visible
geometry differs from the newly computed one, and a second `update()`
with no intervening mutation reports `False` and leaves the layout —
every computed page size, every page position and the geometry —
unchanged. -/
theorem update_idempotent (L : Layout) :
    ((L.update.1).update = (L.update.1, false)) ∧
    (L.update.2 = true ↔ L.update.1.geometryRect ≠ L.geometryRect) := by
  constructor
  · -- notation for the first update's intermediate values
    set σ := sizePage L.rotation L.dpiX L.dpiY L.zoomFactor with hσ
    set L2 := L.updatePageSizes.updatePagePositions with hL2
    set P := L.update.1 with hP
    have hpages1 : P.pages =
        posWalk L.marginLeft L.spacing L.marginTop (L.pages.map σ) := rfl
    -- the second size pass is the identity on the updated layout
    have hsz : P.updatePageSizes = P := by
      unfold Layout.updatePageSizes
      rw [show P.rotation = L.rotation from rfl,
        show P.dpiX = L.dpiX from rfl,
        show P.dpiY = L.dpiY from rfl,
        show P.zoomFactor = L.zoomFactor from rfl,
        hpages1, ← hσ, map_sizePage_posWalk, ← hpages1]
      rfl
    -- so is the second position pass
    have hpos : P.updatePagePositions = P := by
      unfold Layout.updatePagePositions
      rw [show P.marginLeft = L.marginLeft from rfl,
        show P.spacing = L.spacing from rfl,
        show P.marginTop = L.marginTop from rfl,
        hpages1, posWalk_idem, ← hpages1]
      rfl
    -- the clamp and the displayed pages are stable
    have hclamp : P.clampedSet = L2.clampedSet :=
      clampedSet_stable L2 P rfl rfl rfl rfl rfl
    have hclampeq : P.clampedSet = P.currentPageSet := by
      rw [hclamp]
      rfl
    have hdisp : P.dispPages = L2.dispPages :=
      dispPages_congr P L2 rfl rfl rfl rfl hclamp
    have hgeom : P.computeGeometry = L2.computeGeometry := by
      unfold Layout.computeGeometry
      rw [hdisp]
      rfl
    have hPg : P.geometryRect = L2.computeGeometry :=
      geometryRect_after_set { L2 with currentPageSet := L2.clampedSet } L2.computeGeometry
    have hg : P.computeGeometry = P.geometryRect := hgeom.trans hPg.symm
    -- assemble the second update
    simp only [Layout.update]
    rw [hsz, hpos, hg, hclampeq]
    simp only [Prod.mk.injEq]
    constructor
    · simp only [Layout.geometryRect]
      rw [show P.x + P.width - 1 - P.x + 1 = P.width from by ring,
        show P.y + P.height - 1 - P.y + 1 = P.height from by ring]
    · simp
  · set L2 := L.updatePageSizes.updatePagePositions with hL2
    have hPg : (L.update.1).geometryRect = L2.computeGeometry :=
      geometryRect_after_set { L2 with currentPageSet := L2.clampedSet } L2.computeGeometry
    rw [hPg]
    have hLg : L2.geometryRect = L.geometryRect := rfl
    simp only [Layout.update]
    rw [hLg]
    simp only [decide_eq_true_eq]
    exact ne_comm

/-- C5 witness: a second `update()` on a concrete layout returns `False`
and changes nothing. -/
theorem update_idempotent_witness :
    (layoutOnePlaced.update.1).update = (layoutOnePlaced.update.1, false) :=
  (update_idempotent layoutOnePlaced).1

end ClaimC5

section ClaimC8

/-- The walker of `takeEvery`: `c` is the distance to the next kept
element. -/
def takeEveryGo (k : ℕ) : ℕ → List α → List α
  | _, [] => []
  | 0, a :: as => a :: takeEveryGo k (k - 1) as
  | c + 1, _ :: as => takeEveryGo k c as

/-- Python `l[::k]` for `k ≥ 1`: every `k`-th element starting at the
head (the caller drops the column offset first).  Structural recursion so
that it evaluates inside the kernel; `takeEvery_cons` recovers the slice
equation. -/
def takeEvery (k : ℕ) (l : List α) : List α := takeEveryGo k 0 l

theorem takeEveryGo_eq_drop (k : ℕ) :
    ∀ (as : List α) (c : ℕ), takeEveryGo k c as = takeEvery k (as.drop c) := by
  intro as
  induction as with
  | nil => intro c; cases c <;> rfl
  | cons a as ih =>
      intro c
      cases c with
      | zero => rfl
      | succ c =>
          rw [show takeEveryGo k (c + 1) (a :: as) = takeEveryGo k c as from rfl, ih c]
          rfl

/-- The slice semantics of `takeEvery`: `l[::k]` keeps the head and then
`(drop (k-1) l)[::k]`. -/
theorem takeEvery_cons (k : ℕ) (a : α) (as : List α) :
    takeEvery k (a :: as) = a :: takeEvery k (as.drop (k - 1)) := by
  rw [show takeEvery k (a :: as) = a :: takeEveryGo k (k - 1) as from rfl,
    takeEveryGo_eq_drop]

/-- The walker of `chunks`: `acc` is the chunk being built (reversed),
`c` its remaining capacity. -/
def chunksGo (k : ℕ) : List α → ℕ → List α → List (List α)
  | acc, _, [] => [acc.reverse]
  | acc, 0, x :: xs => acc.reverse :: chunksGo k [x] (k - 1) xs
  | acc, c + 1, x :: xs => chunksGo k (x :: acc) c xs

/-- The row slices `pages[i:i+cols]` for `i in range(0, len(pages),
cols or 1)`, for `cols ≥ 1` (with no pages the loop body never runs;
`cols = 0` with pages present is unreachable — Python would already have
raised `ZeroDivisionError` computing the padding).  Structural recursion
so that it evaluates inside the kernel; `chunks_cons` recovers the slice
equation. -/
def chunks (k : ℕ) : List α → List (List α)
  | [] => []
  | x :: xs => chunksGo k [x] (k - 1) xs

theorem chunksGo_eq (k : ℕ) :
    ∀ (xs acc : List α) (c : ℕ),
      chunksGo k acc c xs = (acc.reverse ++ xs.take c) :: chunks k (xs.drop c) := by
  intro xs
  induction xs with
  | nil =>
      intro acc c
      simp [chunksGo, chunks]
  | cons x xs ih =>
      intro acc c
      cases c with
      | zero => simp [chunksGo, chunks]
      | succ c =>
          rw [show chunksGo k acc (c + 1) (x :: xs) = chunksGo k (x :: acc) c xs from rfl,
            ih (x :: acc) c]
          simp

/-- The slice semantics of `chunks` for `k ≥ 1`: the first `k` elements,
then the chunks of the rest. -/
theorem chunks_cons (k : ℕ) (hk : 1 ≤ k) (x : α) (xs : List α) :
    chunks k (x :: xs) = ((x :: xs).take k) :: chunks k ((x :: xs).drop k) := by
  rw [show chunks k (x :: xs) = chunksGo k [x] (k - 1) xs from rfl, chunksGo_eq]
  obtain ⟨k, rfl⟩ : ∃ m, k = m + 1 := ⟨k - 1, by omega⟩
  simp

/-- Python's `max()` over a list of integers; the `[]` case is
unreachable in `updatePagePositions` (Python would raise `ValueError`). -/
def intMax : List ℤ → ℤ
  | [] => 0
  | a :: as => as.foldl max a

/-- The column width computed by the source: `max(p.width for p in
pages[col::cols] if p)`. -/
def colWidthOf (cols : ℕ) (pages : List (Option Page)) (c : ℕ) : ℤ :=
  intMax (((takeEvery cols (pages.drop c)).filterMap id).map (fun p => p.width))

/-- The accumulation of `col_offsets`: `offset += width + spacing`. -/
def offsetsFrom (sp : ℤ) : ℤ → List ℤ → List ℤ
  | _, [] => []
  | off, w :: ws => off :: offsetsFrom sp (off + w + sp) ws

/-- One page placed in its cell: `page.x = col_offsets[n] +
(col_widths[n] - page.width) // 2`, `page.y = top + (height -
page.height) // 2` (Python `//` is floor division).  The `getD` defaults
are unreachable: `n` ranges over a row, which is never longer than
`cols = len(col_offsets)`. -/
def placeOne (co cw : List ℤ) (hgt top : ℤ) (m : ℕ) (p : Page) : Page :=
  { p with
      x := (co.getD m 0) + ((cw.getD m 0) - p.width).fdiv 2,
      y := top + ((hgt - p.height).fdiv 2) }

/-- The `for n, page in enumerate(row)` loop (only real pages move). -/
def placeRow (co cw : List ℤ) (hgt top : ℤ) : ℕ → List (Option Page) → List (Option Page)
  | _, [] => []
  | n, op :: rest =>
      (op.map (placeOne co cw hgt top n)) :: placeRow co cw hgt top (n + 1) rest

/-- The outer row loop with its running `top`. -/
def placeRows (co cw : List ℤ) (sp : ℤ) : ℤ → List (List (Option Page)) → List (List (Option Page))
  | _, [] => []
  | top, row :: rest =>
      let hgt := intMax ((row.filterMap id).map (fun p => p.height))
      placeRow co cw hgt top 0 row :: placeRows co cw sp (top + hgt + sp) rest

/-- The column count: `cols = self.pagesPerRow` if there are more pages
than columns, else `cols = len(pages)`. -/
def gridCols (perRow n : ℕ) : ℕ := if perRow < n then perRow else n

/-- The padding: `(cols - self.pagesFirstRow) % cols` placeholder slots
(Python `%`, i.e. a nonnegative remainder) when the page count exceeds
the column count, none otherwise. -/
def gridPads (perRow firstRow n : ℕ) : ℕ :=
  if perRow < n then (((perRow : ℤ) - (firstRow : ℤ)).emod (perRow : ℤ)).toNat else 0

/-- The conceptually padded page sequence: `pages[0:0] = [None] * pads`. -/
def gridPadded (perRow firstRow : ℕ) (pages0 : List Page) : List (Option Page) :=
  List.replicate (gridPads perRow firstRow pages0.length) none ++ pages0.map some

/-- `RowPageLayout.updatePagePositions()`, with the state it reads —
`margins().left()`, `margins().top()`, `spacing`, `pagesPerRow`,
`pagesFirstRow` and the page list — as explicit arguments; the result is
the page list with the computed positions (the method mutates the pages
in place, so the real pages keep their order and the padding `None`
slots disappear). -/
def rowPositions (ml mt sp : ℤ) (perRow firstRow : ℕ) (pages0 : List Page) : List Page :=
  let cols := gridCols perRow pages0.length
  let padded := gridPadded perRow firstRow pages0
  let colWidths := (List.range cols).map (colWidthOf cols padded)
  let colOffsets := offsetsFrom sp ml colWidths
  ((placeRows colOffsets colWidths sp mt (chunks cols padded)).flatten).filterMap id

/-- The maximal height of the real pages of row `r` of the padded
sequence. -/
def rowHeightAt (cols : ℕ) (l : List (Option Page)) (r : ℕ) : ℤ :=
  intMax ((((l.drop (r * cols)).take cols).filterMap id).map (fun p => p.height))

/-- The top coordinate of row `r`: `top` plus the heights (and spacing)
of the rows above it. -/
def rowTopAt (cols : ℕ) (sp : ℤ) (l : List (Option Page)) (top : ℤ) (r : ℕ) : ℤ :=
  top + ((List.range r).map (fun r' => rowHeightAt cols l r' + sp)).sum

/-- The grid placement as the claim words it: page `k` lives at padded
position `pads + k`, i.e. in column `(pads + k) % cols` of row
`(pads + k) / cols`; its column's width is the maximum width at stride
positions `c, c + cols, c + 2·cols, …` of the padded sequence, its row's
height the maximum height of the row's real pages, and the page is
centered (with floor division) in its column-width × row-height cell,
columns and rows being laid out with the margins and spacing. -/
def specPlace (colW colOff rowH rowTop : ℕ → ℤ) (cols pads : ℕ) :
    ℕ → List Page → List Page
  | _, [] => []
  | k, p :: ps =>
      let c := (pads + k) % cols
      let r := (pads + k) / cols
      { p with
          x := colOff c + ((colW c - p.width).fdiv 2),
          y := rowTop r + ((rowH r - p.height).fdiv 2) } ::
        specPlace colW colOff rowH rowTop cols pads (k + 1) ps

/-- The specified grid layout (see `specPlace`): column widths from the
stride slices of the padded sequence, column offsets and row tops as
running sums of widths/heights plus spacing, pages centered in their
cells. -/
def rowSpec (ml mt sp : ℤ) (perRow firstRow : ℕ) (pages0 : List Page) : List Page :=
  let cols := gridCols perRow pages0.length
  let padded := gridPadded perRow firstRow pages0
  specPlace (colWidthOf cols padded)
    (fun c => ml + ((List.range c).map (fun j => colWidthOf cols padded j + sp)).sum)
    (rowHeightAt cols padded) (rowTopAt cols sp padded mt)
    cols (gridPads perRow firstRow pages0.length) 0 pages0

theorem placeRow_length (co cw : List ℤ) (hgt top : ℤ) :
    ∀ (row : List (Option Page)) (n : ℕ),
      (placeRow co cw hgt top n row).length = row.length := by
  intro row
  induction row with
  | nil => intro n; rfl
  | cons op rest ih =>
      intro n
      simp only [placeRow, List.length_cons, ih]

theorem placeRow_get (co cw : List ℤ) (hgt top : ℤ) :
    ∀ (row : List (Option Page)) (n j : ℕ),
      (placeRow co cw hgt top n row)[j]? =
        (row[j]?).map (Option.map (placeOne co cw hgt top (n + j))) := by
  intro row
  induction row with
  | nil => intro n j; simp [placeRow]
  | cons op rest ih =>
      intro n j
      cases j with
      | zero => simp [placeRow]
      | succ j =>
          simp only [placeRow, List.getElem?_cons_succ]
          rw [ih (n + 1) j, show n + 1 + j = n + (j + 1) from by omega]

theorem placeRows_flatten_length (co cw : List ℤ) (sp : ℤ) (cols : ℕ) (hcols : 1 ≤ cols) :
    ∀ (N : ℕ) (l : List (Option Page)), l.length ≤ N → ∀ top : ℤ,
      ((placeRows co cw sp top (chunks cols l)).flatten).length = l.length := by
  intro N
  induction N with
  | zero =>
      intro l hl top
      have h : l = [] := List.length_eq_zero.mp (by omega)
      subst h
      rfl
  | succ N ih =>
      intro l hl top
      cases l with
      | nil => rfl
      | cons a as =>
          rw [chunks_cons cols hcols a as]
          simp only [placeRows, List.flatten_cons, List.length_append]
          rw [placeRow_length]
          have hdrop : ((a :: as).drop cols).length ≤ N := by
            simp only [List.length_drop, List.length_cons] at hl ⊢
            omega
          rw [ih _ hdrop]
          simp only [List.length_take, List.length_drop, List.length_cons]
          omega

theorem rowHeightAt_drop (cols : ℕ) (l : List (Option Page)) (r : ℕ) :
    rowHeightAt cols (l.drop cols) r = rowHeightAt cols l (r + 1) := by
  unfold rowHeightAt
  rw [List.drop_drop, show cols + r * cols = (r + 1) * cols from by ring]

theorem rowHeightAt_zero (cols : ℕ) (l : List (Option Page)) :
    rowHeightAt cols l 0 = intMax (((l.take cols).filterMap id).map (fun p => p.height)) := by
  unfold rowHeightAt
  rw [Nat.zero_mul, List.drop_zero]

theorem rowTopAt_zero (cols : ℕ) (sp : ℤ) (l : List (Option Page)) (top : ℤ) :
    rowTopAt cols sp l top 0 = top := by
  simp [rowTopAt]

theorem rowTopAt_step (cols : ℕ) (sp : ℤ) (l : List (Option Page)) (top : ℤ) (r : ℕ) :
    rowTopAt cols sp (l.drop cols) (top + rowHeightAt cols l 0 + sp) r =
      rowTopAt cols sp l top (r + 1) := by
  unfold rowTopAt
  rw [List.range_succ_eq_map]
  simp only [List.map_cons, List.sum_cons, List.map_map]
  have hmap : (List.range r).map (fun j => rowHeightAt cols (l.drop cols) j + sp)
      = (List.range r).map ((fun j => rowHeightAt cols l j + sp) ∘ Nat.succ) := by
    apply List.map_congr_left
    intro x _
    simp only [Function.comp_apply, Nat.succ_eq_add_one]
    rw [rowHeightAt_drop]
  rw [hmap]
  ring

/-- The heart of the refinement: element `m` of the flattened placed rows
is element `m` of the padded sequence, placed in column `m % cols` of row
`m / cols`. -/
theorem placeRows_flatten_get (co cw : List ℤ) (sp : ℤ) (cols : ℕ) (hcols : 1 ≤ cols) :
    ∀ (N : ℕ) (l : List (Option Page)), l.length ≤ N → ∀ (top : ℤ) (m : ℕ), m < l.length →
      ((placeRows co cw sp top (chunks cols l)).flatten)[m]? =
        (l[m]?).map (Option.map (placeOne co cw (rowHeightAt cols l (m / cols))
          (rowTopAt cols sp l top (m / cols)) (m % cols))) := by
  intro N
  induction N with
  | zero => intro l hl top m hm; omega
  | succ N ih =>
      intro l hl top m hm
      cases l with
      | nil => simp at hm
      | cons a as =>
          simp only [List.length_cons] at hl hm
          rw [chunks_cons cols hcols a as]
          simp only [placeRows, List.flatten_cons]
          by_cases hmc : m < cols
          · have hm0 : m / cols = 0 := Nat.div_eq_of_lt hmc
            have hmm : m % cols = m := Nat.mod_eq_of_lt hmc
            have hlen1 : m < (placeRow co cw
                (intMax ((((a :: as).take cols).filterMap id).map (fun p => p.height)))
                top 0 ((a :: as).take cols)).length := by
              rw [placeRow_length]
              simp only [List.length_take, List.length_cons]
              omega
            rw [List.getElem?_append_left hlen1, placeRow_get,
              List.getElem?_take_of_lt hmc, hm0, hmm, rowHeightAt_zero, rowTopAt_zero,
              Nat.zero_add]
          · push_neg at hmc
            have hlen1 : (placeRow co cw
                (intMax ((((a :: as).take cols).filterMap id).map (fun p => p.height)))
                top 0 ((a :: as).take cols)).length ≤ m := by
              rw [placeRow_length]
              simp only [List.length_take]
              omega
            rw [List.getElem?_append_right hlen1]
            rw [placeRow_length]
            have hlentake : ((a :: as).take cols).length = cols := by
              simp only [List.length_take, List.length_cons]
              omega
            rw [hlentake]
            have hdl : ((a :: as).drop cols).length ≤ N := by
              simp only [List.length_drop, List.length_cons]
              omega
            have hdm : m - cols < ((a :: as).drop cols).length := by
              simp only [List.length_drop, List.length_cons]
              omega
            rw [ih ((a :: as).drop cols) hdl
              (top + intMax ((((a :: as).take cols).filterMap id).map (fun p => p.height)) + sp)
              (m - cols) hdm]
            rw [List.getElem?_drop, show cols + (m - cols) = m from by omega]
            have hexp : (m - cols) + cols = m := by omega
            have hdiv : m / cols = (m - cols) / cols + 1 := by
              conv_lhs => rw [← hexp]
              rw [Nat.add_div_right _ (by omega : 0 < cols)]
            have hmod : m % cols = (m - cols) % cols := by
              conv_lhs => rw [← hexp]
              rw [Nat.add_mod_right]
            rw [← rowHeightAt_zero, rowHeightAt_drop, rowTopAt_step, ← hdiv, ← hmod]

theorem offsetsFrom_getD (sp : ℤ) :
    ∀ (ws : List ℤ) (off : ℤ) (c : ℕ), c < ws.length →
      (offsetsFrom sp off ws).getD c 0 =
        off + ((List.range c).map (fun j => ws.getD j 0 + sp)).sum := by
  intro ws
  induction ws with
  | nil => intro off c hc; simp at hc
  | cons w ws ih =>
      intro off c hc
      cases c with
      | zero => simp [offsetsFrom]
      | succ c =>
          rw [show (offsetsFrom sp off (w :: ws)).getD (c + 1) 0
              = (offsetsFrom sp (off + w + sp) ws).getD c 0 from rfl]
          rw [ih (off + w + sp) c (by simpa using hc)]
          rw [List.range_succ_eq_map]
          simp only [List.map_cons, List.sum_cons, List.map_map]
          have hmap : (List.range c).map ((fun j => (w :: ws).getD j 0 + sp) ∘ Nat.succ)
              = (List.range c).map (fun j => ws.getD j 0 + sp) := by
            apply List.map_congr_left
            intro x _
            simp
          rw [hmap]
          simp only [List.getD_cons_zero]
          ring

theorem rangeMap_getD (f : ℕ → ℤ) (cols c : ℕ) (hc : c < cols) :
    ((List.range cols).map f).getD c 0 = f c := by
  simp [List.getD, List.getElem?_map, List.getElem?_range hc]

theorem specPlace_length (colW colOff rowH rowTop : ℕ → ℤ) (cols pads : ℕ) :
    ∀ (ps : List Page) (k : ℕ),
      (specPlace colW colOff rowH rowTop cols pads k ps).length = ps.length := by
  intro ps
  induction ps with
  | nil => intro k; rfl
  | cons p ps ih => intro k; simp only [specPlace, List.length_cons, ih]

theorem specPlace_get (colW colOff rowH rowTop : ℕ → ℤ) (cols pads : ℕ) :
    ∀ (ps : List Page) (k j : ℕ),
      (specPlace colW colOff rowH rowTop cols pads k ps)[j]? =
        (ps[j]?).map (fun p =>
          { p with
              x := colOff ((pads + (k + j)) % cols) +
                ((colW ((pads + (k + j)) % cols) - p.width).fdiv 2),
              y := rowTop ((pads + (k + j)) / cols) +
                ((rowH ((pads + (k + j)) / cols) - p.height).fdiv 2) }) := by
  intro ps
  induction ps with
  | nil => intro k j; simp [specPlace]
  | cons p ps ih =>
      intro k j
      cases j with
      | zero => simp [specPlace]
      | succ j =>
          simp only [specPlace, List.getElem?_cons_succ]
          rw [ih (k + 1) j, show k + 1 + j = k + (j + 1) from by omega]

theorem filterMap_id_replicate_none (k : ℕ) :
    (List.replicate k (none : Option Page)).filterMap id = [] := by
  induction k with
  | zero => rfl
  | succ k ih => simp [List.replicate_succ, ih]

theorem filterMap_id_map_some (l : List Page) :
    (l.map some).filterMap id = l := by
  induction l with
  | nil => rfl
  | cons a l ih => simp [ih]

/-- C8, the general refinement: `RowPageLayout.updatePagePositions()`
computes exactly the placement the claim describes. -/
theorem rowPositions_eq_rowSpec (ml mt sp : ℤ) (perRow firstRow : ℕ)
    (pages0 : List Page) (hper : 1 ≤ perRow) :
    rowPositions ml mt sp perRow firstRow pages0 = rowSpec ml mt sp perRow firstRow pages0 := by
  by_cases hnil : pages0 = []
  · subst hnil
    rfl
  · have hnpos : 1 ≤ pages0.length := List.length_pos.mpr hnil
    set n := pages0.length with hn
    set cols := gridCols perRow n with hcolsdef
    set pads := gridPads perRow firstRow n with hpadsdef
    have hcols : 1 ≤ cols := by
      rw [hcolsdef]
      unfold gridCols
      split <;> omega
    set padded := gridPadded perRow firstRow pages0 with hpaddeddef
    have hpaddedlen : padded.length = pads + n := by
      rw [hpaddeddef]
      unfold gridPadded
      simp [List.length_append, List.length_replicate, List.length_map, hn,
        hpadsdef, Nat.add_comm]
    set cw := (List.range cols).map (colWidthOf cols padded) with hcw
    set co := offsetsFrom sp ml cw with hco
    set S := rowSpec ml mt sp perRow firstRow pages0 with hS
    have hSlen : S.length = n := by
      rw [hS]
      unfold rowSpec
      rw [specPlace_length]
    -- the flattened placed rows are the padded sequence of the placed pages
    have hcentral : (placeRows co cw sp mt (chunks cols padded)).flatten
        = List.replicate pads none ++ S.map some := by
      apply List.ext_getElem?
      intro m
      have hflatlen : ((placeRows co cw sp mt (chunks cols padded)).flatten).length
          = padded.length :=
        placeRows_flatten_length co cw sp cols hcols padded.length padded le_rfl mt
      by_cases hm : m < padded.length
      · rw [placeRows_flatten_get co cw sp cols hcols padded.length padded le_rfl mt m hm]
        by_cases hmp : m < pads
        · have hl : padded[m]? = some none := by
            rw [hpaddeddef]
            unfold gridPadded
            rw [List.getElem?_append_left (by simpa [hpadsdef, hn] using hmp),
              List.getElem?_replicate]
            simp [hpadsdef, hn, hmp]
          have hr : (List.replicate pads none ++ S.map some)[m]? = some none := by
            rw [List.getElem?_append_left (by simpa using hmp), List.getElem?_replicate]
            simp [hmp]
          rw [hl, hr]
          rfl
        · push_neg at hmp
          have hk : m - pads < n := by omega
          have hpl : pages0[m - pads]? = some pages0[m - pads] :=
            List.getElem?_eq_getElem (by omega)
          have hpads2 : gridPads perRow firstRow pages0.length = pads := by
            rw [hpadsdef, hn]
          have hl : padded[m]? = some (some pages0[m - pads]) := by
            rw [hpaddeddef]
            unfold gridPadded
            rw [List.getElem?_append_right (by simp only [List.length_replicate, hpads2]; omega)]
            rw [List.getElem?_map]
            simp only [List.length_replicate, hpads2]
            rw [hpl]
            rfl
          have hr : (List.replicate pads none ++ S.map some)[m]?
              = (S[m - pads]?).map some := by
            rw [List.getElem?_append_right (by simpa using hmp)]
            rw [List.getElem?_map]
            simp
          have hSk : S[m - pads]? = (pages0[m - pads]?).map (fun p =>
              { p with
                  x := (ml + ((List.range ((pads + (m - pads)) % cols)).map
                      (fun j => colWidthOf cols padded j + sp)).sum) +
                    ((colWidthOf cols padded ((pads + (m - pads)) % cols) - p.width).fdiv 2),
                  y := rowTopAt cols sp padded mt ((pads + (m - pads)) / cols) +
                    ((rowHeightAt cols padded ((pads + (m - pads)) / cols) - p.height).fdiv 2) }) := by
            rw [hS]
            unfold rowSpec
            rw [specPlace_get]
            simp only [Nat.zero_add]
          have hmk : pads + (m - pads) = m := by omega
          have hmodlt : m % cols < cols := Nat.mod_lt _ (by omega)
          have hcwlen : cw.length = cols := by simp [hcw]
          have hcogetD : co.getD (m % cols) 0
              = ml + ((List.range (m % cols)).map
                  (fun j => colWidthOf cols padded j + sp)).sum := by
            rw [hco, offsetsFrom_getD sp cw ml (m % cols) (by rw [hcwlen]; omega)]
            have hcong : (List.range (m % cols)).map (fun j => cw.getD j 0 + sp)
                = (List.range (m % cols)).map (fun j => colWidthOf cols padded j + sp) := by
              apply List.map_congr_left
              intro j hj
              rw [List.mem_range] at hj
              rw [hcw, rangeMap_getD _ _ _ (by omega)]
            rw [hcong]
          have hcwgetD : cw.getD (m % cols) 0 = colWidthOf cols padded (m % cols) := by
            rw [hcw, rangeMap_getD _ _ _ hmodlt]
          rw [hmk] at hSk
          rw [hl, hr, hSk, hpl]
          simp only [Option.map_some', Option.some.injEq]
          simp only [placeOne]
          rw [hcogetD, hcwgetD]
      · push_neg at hm
        rw [List.getElem?_eq_none (by rw [hflatlen]; omega)]
        rw [List.getElem?_eq_none (by
          simp only [List.length_append, List.length_replicate, List.length_map, hSlen]
          omega)]
    have hbody : rowPositions ml mt sp perRow firstRow pages0
        = ((placeRows co cw sp mt (chunks cols padded)).flatten).filterMap id := rfl
    rw [hbody, hcentral, List.filterMap_append, filterMap_id_replicate_none,
      filterMap_id_map_some, List.nil_append]

/-- Seven pages of distinct sizes for the claim's concrete instance. -/
def sevenPages : List Page :=
  [mkPage 10 5, mkPage 11 6, mkPage 12 7, mkPage 13 8,
   mkPage 14 9, mkPage 15 10, mkPage 16 11]

/-- C8: `RowPageLayout.updatePagePositions` computes exactly the grid
placement the claim describes (left-padding, stride column widths, row
heights, centered cells — see `rowSpec`), and in particular for
`pagesPerRow = 3`, `pagesFirstRow = 1` and 7 pages the padding is 2 and
the row membership is `[p0]`, `[p1,p2,p3]`, `[p4,p5,p6]`. -/
theorem rowLayout_spec :
    (∀ (ml mt sp : ℤ) (perRow firstRow : ℕ) (pages0 : List Page), 1 ≤ perRow →
      rowPositions ml mt sp perRow firstRow pages0 =
        rowSpec ml mt sp perRow firstRow pages0) ∧
    gridPads 3 1 sevenPages.length = 2 ∧
    (chunks (gridCols 3 sevenPages.length) (gridPadded 3 1 sevenPages)).map
        (fun r => r.filterMap id) =
      [[mkPage 10 5], [mkPage 11 6, mkPage 12 7, mkPage 13 8],
       [mkPage 14 9, mkPage 15 10, mkPage 16 11]] :=
  ⟨fun ml mt sp perRow firstRow pages0 h =>
      rowPositions_eq_rowSpec ml mt sp perRow firstRow pages0 h,
    by decide, by decide⟩

/-- C8 witness: the placement equality at the claim's instance
(margins 6, spacing 8, 3 pages per row, 1 page in the first row, the
seven distinct pages). -/
theorem rowLayout_spec_witness :
    rowPositions 6 6 8 3 1 sevenPages = rowSpec 6 6 8 3 1 sevenPages :=
  rowLayout_spec.1 6 6 8 3 1 sevenPages (by decide)

end ClaimC8

end QPV


